import Mathlib

/-!
Shallow embedding of the drag-to-reorder list library
(react-native-reanimated-drag-list) and proofs about its core
algorithms: the shared positions table, the pointer-update swap logic,
the auto-scroll frame callbacks, the variable-height offset computation
and the drag-finalize order reconstruction.

Pixel quantities of the fixed-height variant (src/DraggableItem.tsx and
the simple variant in src/index.tsx) are modelled as rationals; the
nestable variant (src/NestableDraggableFlatList.tsx) is modelled over an
arbitrary linear ordered field, instantiated at the reals where its
sine-based auto-scroll speed needs `Real.cos`.
-/

namespace DragList

/-- Item identity: the stable string key produced by `keyExtractor`. -/
abbrev Key := String

/-- The `positions` shared value: a JS object mapping each key to its slot
index, modelled as an insertion-ordered association list (JS objects keep
string keys in insertion order). -/
abbrev PosMap := List (Key × Int)

/-- Reading `positions.value[k]`: the stored value, if the key is present. -/
def lookupPos (m : PosMap) (k : Key) : Option Int :=
  (m.find? (fun p => p.1 == k)).map Prod.snd

/-- `Object.keys(positions.value)`, in insertion order. -/
def posKeys (m : PosMap) : List Key := m.map Prod.fst

/-- The list of occupied slot values of the positions object. -/
def slotValues (m : PosMap) : List Int := m.map Prod.snd

/-- Writing `obj[k] = v` on a JS object: replaces the value in place when
the key is present, otherwise appends the key at the end. -/
def setPos : PosMap → Key → Int → PosMap
  | [], k, v => [(k, v)]
  | (k', v') :: rest, k, v =>
    if k' == k then (k, v) :: rest else (k', v') :: setPos rest k v

/-- The positions table is a bijection onto the slot set `{0, …, N-1}`:
no duplicate keys, and the stored slot values are exactly `0, …, N-1`
in some order (no duplicates, no gaps). -/
def IsBijectionOnto (m : PosMap) (N : Nat) : Prop :=
  (posKeys m).Nodup ∧ (slotValues m).Perm ((List.range N).map Int.ofNat)

instance (m : PosMap) (N : Nat) : Decidable (IsBijectionOnto m N) :=
  inferInstanceAs (Decidable (_ ∧ _))

/-! ### Constants (src/constants.ts) -/

/-- Pixels from the edge that trigger auto-scroll (fixed-height variant). -/
def AUTO_SCROLL_THRESHOLD : ℚ := 150

/-- Max auto-scroll speed in pixels per frame, at the very edge. -/
def AUTO_SCROLL_MAX_SPEED : ℚ := 12

/-- Min auto-scroll speed in pixels per frame, at the threshold boundary. -/
def AUTO_SCROLL_MIN_SPEED : ℚ := 1

/-- Fraction of the item height needed to trigger a swap. -/
def SWAP_THRESHOLD : ℚ := 0.5

/-! ### DraggableItem.tsx (fixed-height variant) -/

/-- The per-item shared values owned by one `DraggableItem`. -/
structure ItemState where
  isDragging : Bool
  isSettling : Bool
  top : ℚ
  startY : ℚ
  startTop : ℚ
  startScrollY : ℚ
  currentFingerY : ℚ
  previousFingerY : ℚ
  movementDirection : Int
  deriving DecidableEq, Repr

/-- `pan.onStart` (DraggableItem.tsx lines 137-152): on drag activation,
capture the initial pointer coordinate, the scroll offset, and the
current slot's rest offset; reset the settle flag and direction. -/
def panStart (id : Key) (itemHeight : ℚ) (positions : PosMap)
    (scrollY : ℚ) (st : ItemState) (absY : ℚ) : ItemState :=
  let currentIndex := (lookupPos positions id).getD 0
  let startTop := (currentIndex : ℚ) * itemHeight
  { st with
    isDragging := true
    isSettling := false
    movementDirection := 0
    startY := absY
    startScrollY := scrollY
    currentFingerY := absY
    previousFingerY := absY
    startTop := startTop
    top := startTop }

/-- The rendered offset written by `pan.onUpdate` (DraggableItem.tsx lines
169-171): `startTop + deltaY + deltaScroll`. -/
def panUpdateNewTop (st : ItemState) (scrollY absY : ℚ) : ℚ :=
  let deltaY := absY - st.startY
  let deltaScroll := scrollY - st.startScrollY
  st.startTop + deltaY + deltaScroll

/-- The displacement of the dragged item from its current slot's rest
offset, as computed in `pan.onUpdate` (lines 174-176). -/
def panDisplacement (id : Key) (itemHeight : ℚ) (positions : PosMap)
    (scrollY : ℚ) (st : ItemState) (absY : ℚ) : ℚ :=
  let currentIndex := (lookupPos positions id).getD 0
  panUpdateNewTop st scrollY absY - (currentIndex : ℚ) * itemHeight

/-- The clamped target index of `pan.onUpdate` (lines 181-186): one step in
the displacement's direction, clamped to `[0, totalCount-1]`. -/
def panClampedTarget (id : Key) (itemHeight : ℚ) (totalCount : Nat)
    (positions : PosMap) (scrollY : ℚ) (st : ItemState) (absY : ℚ) : Int :=
  let currentIndex := (lookupPos positions id).getD 0
  let displacement := panDisplacement id itemHeight positions scrollY st absY
  let targetIndex := if displacement > 0 then currentIndex + 1 else currentIndex - 1
  max 0 (min targetIndex ((totalCount : Int) - 1))

/-- `keySource.find((key) => positions.value[key] === slot)`: the first key
of `keySource` currently occupying `slot`. -/
def findOccupant (keySource : List Key) (m : PosMap) (slot : Int) : Option Key :=
  keySource.find? (fun key => decide (lookupPos m key = some slot))

/-- The swap body shared by all pan.onUpdate variants (DraggableItem.tsx
lines 189-199, NestableDraggableFlatList.tsx lines 419-428, index.tsx
lines 77-88): look up the occupant of the clamped target slot and, if it
is a truthy key (JS: non-empty) different from the dragged id, write both
new slots into a fresh object in one commit. -/
def trySwap (m : PosMap) (keySource : List Key) (id : Key)
    (currentIndex clampedTarget : Int) : PosMap :=
  match findOccupant keySource m clampedTarget with
  | some itemToSwapId =>
    if itemToSwapId ≠ "" ∧ itemToSwapId ≠ id then
      setPos (setPos m id clampedTarget) itemToSwapId currentIndex
    else m
  | none => m

/-- `pan.onUpdate` (DraggableItem.tsx lines 153-202): movement-direction
tracking, the rendered-offset update, and the threshold-gated single swap.
Returns the new item state and the new positions object. -/
def panUpdate (id : Key) (itemHeight : ℚ) (totalCount : Nat)
    (positions : PosMap) (scrollY : ℚ) (st : ItemState) (absY : ℚ) :
    ItemState × PosMap :=
  let deltaFromPrevious := absY - st.previousFingerY
  let dir : Int :=
    if deltaFromPrevious > 2 then 1
    else if deltaFromPrevious < -2 then -1
    else st.movementDirection
  let top := panUpdateNewTop st scrollY absY
  let st' : ItemState :=
    { st with
      movementDirection := dir
      previousFingerY := st.currentFingerY
      currentFingerY := absY
      top := top }
  let currentIndex := (lookupPos positions id).getD 0
  let displacement := panDisplacement id itemHeight positions scrollY st absY
  let thresholdDistance := itemHeight * SWAP_THRESHOLD
  if |displacement| > thresholdDistance then
    let clampedTargetIndex := panClampedTarget id itemHeight totalCount positions scrollY st absY
    if clampedTargetIndex ≠ currentIndex then
      (st', trySwap positions (posKeys positions) id currentIndex clampedTargetIndex)
    else (st', positions)
  else (st', positions)

/-- Result of `pan.onFinalize` (DraggableItem.tsx): the new item state and
the target of the settle spring, if one was started (its completion
callback is what later schedules `onDragFinalize`). -/
structure FinalizeResult where
  state : ItemState
  settleTarget : Option ℚ
  deriving DecidableEq, Repr

/-- `pan.onFinalize` (DraggableItem.tsx lines 203-227): a no-op unless a
drag was actually started; otherwise flip to settling and start the spring
toward the current slot's rest offset. -/
def panFinalize (id : Key) (itemHeight : ℚ) (positions : PosMap)
    (st : ItemState) : FinalizeResult :=
  if !st.isDragging then ⟨st, none⟩
  else
    let st' := { st with isSettling := true, isDragging := false }
    let targetIndex := (lookupPos positions id).getD 0
    ⟨st', some ((targetIndex : ℚ) * itemHeight)⟩

/-- Progressive auto-scroll speed (DraggableItem.tsx lines 65-79): cubic
ease from `MAX_SPEED` at the edge down to `MIN_SPEED` at the threshold. -/
def getProgressiveSpeed (distanceFromEdge : ℚ) : ℚ :=
  let normalizedDistance := min 1 (max 0 (distanceFromEdge / AUTO_SCROLL_THRESHOLD))
  let easedProgress := (1 - normalizedDistance) ^ 3
  AUTO_SCROLL_MIN_SPEED + (AUTO_SCROLL_MAX_SPEED - AUTO_SCROLL_MIN_SPEED) * easedProgress

/-- Result of one auto-scroll frame tick of the fixed-height variant: the
new item state and the offset commanded to the scroll view, if any. -/
structure TickResult where
  state : ItemState
  scrollCommand : Option ℚ
  deriving DecidableEq, Repr

/-- `useFrameCallback` (DraggableItem.tsx lines 82-132): direction-aware
edge auto-scroll; when it scrolls, it clamps the new offset, commands the
scroll view, and re-applies the rendered-offset formula with the new
scroll offset. -/
def frameTick (st : ItemState)
    (scrollY containerTop containerHeight contentHeight : ℚ) : TickResult :=
  if !st.isDragging then ⟨st, none⟩
  else
    let relativeFingerY := st.currentFingerY - containerTop
    let distanceFromTop := relativeFingerY
    let distanceFromBottom := containerHeight - relativeFingerY
    let maxScroll := max 0 (contentHeight - containerHeight)
    let isMovingUp := st.movementDirection < 0
    let isMovingDown := st.movementDirection > 0
    let scrollDelta : ℚ :=
      if distanceFromTop < AUTO_SCROLL_THRESHOLD ∧ 0 ≤ distanceFromTop ∧
          0 < scrollY ∧ isMovingUp then
        -getProgressiveSpeed distanceFromTop
      else if distanceFromBottom < AUTO_SCROLL_THRESHOLD ∧ 0 ≤ distanceFromBottom ∧
          scrollY < maxScroll ∧ isMovingDown then
        getProgressiveSpeed distanceFromBottom
      else 0
    if scrollDelta ≠ 0 then
      let newScroll := max 0 (min maxScroll (scrollY + scrollDelta))
      let deltaY := st.currentFingerY - st.startY
      let deltaScroll := newScroll - st.startScrollY
      ⟨{ st with top := st.startTop + deltaY + deltaScroll }, some newScroll⟩
    else ⟨st, none⟩

/-! ### index.tsx (simple variant, first document) -/

/-- The per-item shared values of the simple variant. -/
structure SimpleItemState where
  isDragging : Bool
  top : ℚ
  deriving DecidableEq, Repr

/-- The clamped index computed by the simple variant's `pan.onUpdate`
(index.tsx lines 71-74). -/
def simpleClampedIndex (itemHeight : ℚ) (totalCount : Nat)
    (scrollY absY : ℚ) : Int :=
  let top := absY + scrollY - itemHeight / 2
  let newIndex := ⌊(top + itemHeight / 2) / itemHeight⌋
  max 0 (min newIndex ((totalCount : Int) - 1))

/-- `pan.onUpdate` of the simple variant (index.tsx lines 66-90). -/
def simpleUpdate (id : Key) (itemHeight : ℚ) (totalCount : Nat)
    (positions : PosMap) (scrollY : ℚ) (st : SimpleItemState) (absY : ℚ) :
    SimpleItemState × PosMap :=
  let top := absY + scrollY - itemHeight / 2
  let st' := { st with top := top }
  let clampedIndex := simpleClampedIndex itemHeight totalCount scrollY absY
  if lookupPos positions id ≠ some clampedIndex then
    let oldIndex := (lookupPos positions id).getD 0
    (st', trySwap positions (posKeys positions) id oldIndex clampedIndex)
  else (st', positions)

/-- Result of the simple variant's `pan.onFinalize`: new state, the spring
target, and whether `scheduleOnRN(onDragFinalize)` ran in the handler. -/
structure SimpleFinalizeResult where
  state : SimpleItemState
  settleTarget : Option ℚ
  finalizeScheduled : Bool
  deriving DecidableEq, Repr

/-- `pan.onFinalize` of the simple variant (index.tsx lines 91-97): it has
no drag guard — it always starts the settle spring and always schedules
the drag-finalize notification. -/
def simpleFinalize (id : Key) (itemHeight : ℚ) (positions : PosMap)
    (st : SimpleItemState) : SimpleFinalizeResult :=
  let targetIndex := (lookupPos positions id).getD 0
  let finalTop := (targetIndex : ℚ) * itemHeight
  ⟨{ st with isDragging := false }, some finalTop, true⟩

/-! ### NestableDraggableFlatList.tsx (nestable, variable-height variant)

The arithmetic of this variant is written over an arbitrary linear
ordered field `α`; the component instantiates it at the reals (where the
sine-based auto-scroll speed lives). -/

/-- The `heights` shared value: measured item heights keyed by id. -/
abbrev HeightMap (α : Type) := List (Key × α)

/-- Reading `heights.value[k]`. -/
def lookupHeight {α : Type} (hs : HeightMap α) (k : Key) : Option α :=
  (hs.find? (fun p => p.1 == k)).map Prod.snd

/-- `heights.value = { ...heights.value, [id]: height }` (NestableDraggableFlatList.tsx
line 603): replace in place when present, append otherwise. -/
def setHeight {α : Type} : HeightMap α → Key → α → HeightMap α
  | [], k, v => [(k, v)]
  | (k', v') :: rest, k, v =>
    if k' == k then (k, v) :: rest else (k', v') :: setHeight rest k v

/-- The props captured by one `NestableDraggableItem` closure. -/
structure NParams (α : Type) where
  id : Key
  fixedItemHeight : Option α
  estimatedItemHeight : α
  totalCount : Nat
  allKeys : List Key

/-- Swap threshold of the nestable variant (its local constant, line 28). -/
def NSWAP_THRESHOLD {α : Type} [LinearOrderedField α] : α := 0.5

/-- `getItemOffset` (NestableDraggableFlatList.tsx lines 115-133): walk
slots `0 … targetPosition-1` and add the occupant's measured height,
falling back to the estimated height for an unmeasured or missing (or
JS-falsy, i.e. empty-key) occupant. -/
def getItemOffset {α : Type} [LinearOrderedField α] (heights : HeightMap α)
    (positions : PosMap) (targetPosition : Int) (keys : List Key)
    (estimatedHeight : α) : α :=
  (List.range targetPosition.toNat).foldl
    (fun (offset : α) (i : Nat) =>
      match keys.find? (fun k => decide (lookupPos positions k = some (i : Int))) with
      | some keyAtPosition =>
        if keyAtPosition ≠ "" then
          offset + ((lookupHeight heights keyAtPosition).getD estimatedHeight)
        else offset + estimatedHeight
      | none => offset + estimatedHeight)
    0

/-- Recursion core of `getPositionAtOffset`: scan slots accumulating
heights until the offset falls inside a slot's range. -/
def getPositionAtOffsetGo {α : Type} [LinearOrderedField α]
    (heights : HeightMap α) (positions : PosMap) (offset : α)
    (keys : List Key) (totalCount : Nat) (estimatedHeight : α)
    (i : Nat) (cumulative : α) : Int :=
  if _h : i < totalCount then
    let height : α :=
      match keys.find? (fun k => decide (lookupPos positions k = some (i : Int))) with
      | some keyAtPosition =>
        if keyAtPosition ≠ "" then (lookupHeight heights keyAtPosition).getD estimatedHeight
        else estimatedHeight
      | none => estimatedHeight
    if offset < cumulative + height then (i : Int)
    else getPositionAtOffsetGo heights positions offset keys totalCount
      estimatedHeight (i + 1) (cumulative + height)
  else (totalCount : Int) - 1
termination_by totalCount - i
decreasing_by omega

/-- `getPositionAtOffset` (NestableDraggableFlatList.tsx lines 136-157):
the slot whose offset range contains `offset`, else `totalCount - 1`. -/
def getPositionAtOffset {α : Type} [LinearOrderedField α]
    (heights : HeightMap α) (positions : PosMap) (offset : α)
    (keys : List Key) (totalCount : Nat) (estimatedHeight : α) : Int :=
  getPositionAtOffsetGo heights positions offset keys totalCount estimatedHeight 0 0

/-- `getItemHeight` (lines 234-240): the fixed height if configured, else
the measured height with the estimate as fallback. -/
def getItemHeight {α : Type} [LinearOrderedField α] (p : NParams α)
    (heights : HeightMap α) (itemId : Key) : α :=
  match p.fixedItemHeight with
  | some fh => fh
  | none => (lookupHeight heights itemId).getD p.estimatedItemHeight

/-- `calculateOffset` (lines 243-255): rest offset of a slot — fixed
height times slot, or the cumulative variable-height offset. -/
def calculateOffset {α : Type} [LinearOrderedField α] (p : NParams α)
    (heights : HeightMap α) (positions : PosMap) (position : Int) : α :=
  match p.fixedItemHeight with
  | some fh => (position : α) * fh
  | none => getItemOffset heights positions position p.allKeys p.estimatedItemHeight

/-- The per-item shared values owned by one `NestableDraggableItem`. -/
structure NItemState (α : Type) where
  isDragging : Bool
  isSettling : Bool
  top : α
  startY : α
  startTop : α
  startScrollY : α
  currentFingerY : α
  currentScrollVelocity : α

/-- `pan.onUpdate` of the nestable variant (lines 386-431): rendered
offset update, dynamic threshold, center-based target slot, and the
threshold-gated swap (the occupant search runs over `allKeys`). -/
def nestableUpdate {α : Type} [LinearOrderedField α] (p : NParams α)
    (heights : HeightMap α) (positions : PosMap) (scrollY : α)
    (st : NItemState α) (absY : α) : NItemState α × PosMap :=
  let deltaY := absY - st.startY
  let deltaScroll := scrollY - st.startScrollY
  let top := st.startTop + deltaY + deltaScroll
  let st' := { st with currentFingerY := absY, top := top }
  let currentPosition := (lookupPos positions p.id).getD 0
  let currentItemHeight := getItemHeight p heights p.id
  let currentOffset := calculateOffset p heights positions currentPosition
  let displacement := top - currentOffset
  let thresholdDistance := currentItemHeight * NSWAP_THRESHOLD
  if |displacement| > thresholdDistance then
    let draggedCenter := top + currentItemHeight / 2
    let targetPosition := getPositionAtOffset heights positions draggedCenter
      p.allKeys p.totalCount (p.fixedItemHeight.getD p.estimatedItemHeight)
    let clampedTargetPosition := max 0 (min targetPosition ((p.totalCount : Int) - 1))
    if clampedTargetPosition ≠ currentPosition then
      (st', trySwap positions p.allKeys p.id currentPosition clampedTargetPosition)
    else (st', positions)
  else (st', positions)

/-- Result of the nestable `pan.onFinalize`: new state, spring target (its
completion runs `onDragFinalize`), and the write to the shared
`outerScrollEnabled` value, if any. -/
structure NFinalizeResult (α : Type) where
  state : NItemState α
  settleTarget : Option α
  outerScrollEnabled : Option Bool

/-- `pan.onFinalize` of the nestable variant (lines 432-461): a no-op
unless a drag was actually started. -/
def nestableFinalize {α : Type} [LinearOrderedField α] (p : NParams α)
    (heights : HeightMap α) (positions : PosMap) (st : NItemState α) :
    NFinalizeResult α :=
  if !st.isDragging then ⟨st, none, none⟩
  else
    let st' := { st with
      isSettling := true, isDragging := false, currentScrollVelocity := 0 }
    let targetPosition := (lookupPos positions p.id).getD 0
    ⟨st', some (calculateOffset p heights positions targetPosition), some true⟩

/-- `getTargetSpeed` (lines 274-289): sine-eased auto-scroll speed from
`maxSpeed` at the edge down to `minSpeed` at the threshold boundary. -/
noncomputable def getTargetSpeed (threshold minSpeed maxSpeed : ℝ)
    (distanceFromEdge : ℝ) : ℝ :=
  let normalizedDistance := min 1 (max 0 (distanceFromEdge / threshold))
  let easedProgress := (1 - Real.cos ((1 - normalizedDistance) * Real.pi)) / 2
  minSpeed + (maxSpeed - minSpeed) * easedProgress

/-- `lerp` (lines 292-295). -/
def lerp (current target factor : ℝ) : ℝ := current + (target - current) * factor

/-- Result of one nestable auto-scroll frame tick: new item state, the
value of the shared `scrollY` after the tick (the tick writes it back
itself), and the offset commanded to the scroll view, if any. -/
structure NTickResult where
  state : NItemState ℝ
  scrollY : ℝ
  scrollCommand : Option ℝ

/-- `useFrameCallback` of the nestable variant (lines 298-356):
velocity-smoothed edge auto-scroll; when the smoothed velocity is
significant it clamps the new offset, commands the scroll view, stores
the offset back into `scrollY`, and re-applies the rendered-offset
formula. -/
noncomputable def nestableFrameTick
    (autoScrollThreshold autoScrollMinSpeed autoScrollMaxSpeed autoScrollSmoothing : ℝ)
    (st : NItemState ℝ)
    (scrollY containerTop containerHeight contentHeight : ℝ) : NTickResult :=
  if !st.isDragging then
    ⟨{ st with currentScrollVelocity := lerp st.currentScrollVelocity 0 0.3 },
      scrollY, none⟩
  else
    let relativeFingerY := st.currentFingerY - containerTop
    let distanceFromTop := relativeFingerY
    let distanceFromBottom := containerHeight - relativeFingerY
    let maxScroll := max 0 (contentHeight - containerHeight)
    let targetVelocity : ℝ :=
      if distanceFromTop < autoScrollThreshold ∧ 0 ≤ distanceFromTop ∧ 0 < scrollY then
        -getTargetSpeed autoScrollThreshold autoScrollMinSpeed autoScrollMaxSpeed distanceFromTop
      else if distanceFromBottom < autoScrollThreshold ∧ 0 ≤ distanceFromBottom ∧
          scrollY < maxScroll then
        getTargetSpeed autoScrollThreshold autoScrollMinSpeed autoScrollMaxSpeed distanceFromBottom
      else 0
    let v := lerp st.currentScrollVelocity targetVelocity autoScrollSmoothing
    let st' := { st with currentScrollVelocity := v }
    let scrollDelta := v
    if |scrollDelta| > 0.1 then
      let newScroll := max 0 (min maxScroll (scrollY + scrollDelta))
      let deltaY := st.currentFingerY - st.startY
      let deltaScroll := newScroll - st.startScrollY
      ⟨{ st' with top := st.startTop + deltaY + deltaScroll }, newScroll, some newScroll⟩
    else ⟨st', scrollY, none⟩

/-! ### Drag-finalize order reconstruction (NestableDraggableFlatList.tsx
lines 619-632 and index.tsx lines 247-261) -/

/-- `newOrder[i] = v` on a JS array: in range it sets the cell; past the
end it extends the array with holes; a negative index leaves the array
elements untouched (JS stores it as a plain property). -/
def jsarraySet {α : Type} (arr : List (Option α)) (i : Int) (v : α) :
    List (Option α) :=
  if 0 ≤ i then
    let n := i.toNat
    if n < arr.length then arr.set n (some v)
    else arr ++ List.replicate (n - arr.length) none ++ [some v]
  else arr

/-- One step of the `data.forEach` loop of `handleDragFinalize`: place the
item at its slot when its key resolves in the positions table. -/
def finalizeStep {α : Type} (keyExtractor : α → Key) (positions : PosMap)
    (newOrder : List (Option α)) (item : α) : List (Option α) :=
  match lookupPos positions (keyExtractor item) with
  | some position => jsarraySet newOrder position item
  | none => newOrder

/-- `handleDragFinalize` (NestableDraggableFlatList.tsx lines 619-632):
build `new Array(data.length)` and place every item whose key resolves at
its slot; the result is what `onDragEnd` receives (`none` = a hole). -/
def handleDragFinalize {α : Type} (data : List α) (keyExtractor : α → Key)
    (positions : PosMap) : List (Option α) :=
  data.foldl (finalizeStep keyExtractor positions)
    (List.replicate data.length none)

/-! ### Sequences of pointer-update swap operations -/

/-- One pointer-update event against the shared positions table, of either
drag-item variant. -/
inductive SwapEvent : Type
  | fixedEv (id : Key) (itemHeight : ℚ) (totalCount : Nat) (scrollY : ℚ)
      (st : ItemState) (absY : ℚ)
  | nestEv (p : NParams ℝ) (heights : HeightMap ℝ) (scrollY : ℝ)
      (st : NItemState ℝ) (absY : ℝ)

/-- The key of the item being dragged in an event. -/
def SwapEvent.draggedId : SwapEvent → Key
  | .fixedEv id _ _ _ _ _ => id
  | .nestEv p _ _ _ _ => p.id

/-- Apply one pointer-update event to the positions table. -/
noncomputable def applyEvent (m : PosMap) : SwapEvent → PosMap
  | .fixedEv id h N sc st e => (panUpdate id h N m sc st e).2
  | .nestEv p hs sc st e => (nestableUpdate p hs m sc st e).2

/-! ### Spec-side definition for the variable-height offset -/

/-- Stated from the spec (section 3, Height Table): the rest offset of
slot `s` is the sum over slots `0 … s-1` of the occupying item's measured
height, with the estimated height for a slot whose occupant is unknown or
unmeasured. Written from the spec's words, for comparison with
`getItemOffset`. -/
def specSlotOffset {α : Type} [LinearOrderedField α] (heights : HeightMap α)
    (positions : PosMap) (s : Nat) (keys : List Key) (estimatedHeight : α) : α :=
  ((List.range s).map (fun (i : Nat) =>
    match keys.find? (fun k => decide (lookupPos positions k = some (i : Int))) with
    | some k => (lookupHeight heights k).getD estimatedHeight
    | none => estimatedHeight)).sum

/-! ### Concrete instances used by counterexamples and witnesses -/

/-- A two-item positions table with the dragged item in the last slot. -/
def exPositionsTwo : PosMap := [("a", 0), ("b", 1)]

/-- Item state of a drag of the last item displaced one pixel past the
swap threshold (rest offset 100, rendered offset 151 at item height 100). -/
def exStateLast : ItemState :=
  ⟨true, false, 0, 0, 100, 0, 0, 0, 0⟩

/-- Example heights for the variable-height offset property. -/
def exHeights : HeightMap ℚ := [("a", 50), ("b", 70), ("c", 60)]

/-- Example positions for the variable-height offset property. -/
def exPositionsThree : PosMap := [("a", 0), ("b", 1), ("c", 2)]

/-- A dragging state whose finger sits 20px from the bottom of a 500px
container, moving downward (used by concrete frame-tick instances). -/
def exTickState : ItemState :=
  ⟨true, false, 0, 0, 0, 0, 480, 0, 1⟩

/-- A second copy of the same dragging geometry for the auto-scroll clamp
instance. -/
def exTickStateB : ItemState :=
  ⟨true, false, 0, 10, 0, 5, 480, 0, 1⟩

/-- A dragging state resting at slot 0 (used with a positions table that
has a gap at slot 1). -/
def exStateGap : ItemState :=
  ⟨true, false, 0, 0, 0, 0, 0, 0, 0⟩

/-- A positions table with a hole: slot 1 is unoccupied. -/
def exPositionsGap : PosMap := [("a", 0), ("b", 2)]

/-- An idle (never-dragged) item state. -/
def exIdleState : ItemState :=
  ⟨false, false, 0, 0, 0, 0, 0, 0, 0⟩

/-- An idle state of the simple variant. -/
def exSimpleIdle : SimpleItemState := ⟨false, 0⟩

/-- A dragging state of a 3-item fixed-height list, displaced one pixel
past the swap threshold downward from slot 0. -/
def exStateFirst : ItemState :=
  ⟨true, false, 0, 0, 0, 0, 0, 0, 0⟩

/-- Nestable tick state: dragging, finger mid-container, carried scroll
velocity 1. -/
noncomputable def exNTickState : NItemState ℝ :=
  ⟨true, false, 0, 0, 0, 0, 500, 1⟩

/-- A positions table for a 3-item data set in which the key "B" is
absent (slot 1 is never written). -/
def exPositionsAbsent : PosMap := [("A", 0), ("C", 2)]

/-! ## Lemmas about the positions object -/

theorem lookupPos_cons (k' : Key) (v' : Int) (rest : PosMap) (k : Key) :
    lookupPos ((k', v') :: rest) k = if k' = k then some v' else lookupPos rest k := by
  by_cases h : k' = k <;> simp [lookupPos, List.find?_cons, h]

theorem lookupPos_setPos_self (m : PosMap) (k : Key) (v : Int) :
    lookupPos (setPos m k v) k = some v := by
  induction m with
  | nil => simp [setPos, lookupPos, List.find?_cons]
  | cons p rest ih =>
    obtain ⟨k', v'⟩ := p
    by_cases h : k' = k
    · simp [setPos, h, lookupPos_cons]
    · simp [setPos, h, lookupPos_cons, ih]

theorem lookupPos_setPos_ne (m : PosMap) (k k' : Key) (v : Int) (h : k ≠ k') :
    lookupPos (setPos m k v) k' = lookupPos m k' := by
  induction m with
  | nil => simp [setPos, lookupPos, List.find?_cons, h]
  | cons p rest ih =>
    obtain ⟨k₀, v₀⟩ := p
    by_cases h₀ : k₀ = k
    · subst h₀
      simp [setPos, lookupPos_cons, h]
    · simp [setPos, h₀, lookupPos_cons, ih]

theorem posKeys_cons (k₀ : Key) (v₀ : Int) (rest : PosMap) :
    posKeys ((k₀, v₀) :: rest) = k₀ :: posKeys rest := rfl

theorem slotValues_cons (k₀ : Key) (v₀ : Int) (rest : PosMap) :
    slotValues ((k₀, v₀) :: rest) = v₀ :: slotValues rest := rfl

theorem setPos_cons_ne {k₀ k : Key} (v₀ : Int) (rest : PosMap) (v : Int)
    (h₀ : ¬k₀ = k) :
    setPos ((k₀, v₀) :: rest) k v = (k₀, v₀) :: setPos rest k v := by
  simp [setPos, h₀]

theorem mem_posKeys_of_lookupPos {m : PosMap} {k : Key} {v : Int}
    (h : lookupPos m k = some v) : k ∈ posKeys m := by
  induction m with
  | nil => simp [lookupPos] at h
  | cons p rest ih =>
    obtain ⟨k₀, v₀⟩ := p
    rw [lookupPos_cons] at h
    rw [posKeys_cons]
    by_cases h₀ : k₀ = k
    · exact h₀ ▸ List.mem_cons_self _ _
    · rw [if_neg h₀] at h
      exact List.mem_cons_of_mem _ (ih h)

theorem lookupPos_isSome_of_mem {m : PosMap} {k : Key}
    (h : k ∈ posKeys m) : ∃ v, lookupPos m k = some v := by
  induction m with
  | nil => simp [posKeys] at h
  | cons p rest ih =>
    obtain ⟨k₀, v₀⟩ := p
    by_cases h₀ : k₀ = k
    · exact ⟨v₀, by simp [lookupPos_cons, h₀]⟩
    · rw [posKeys_cons] at h
      rcases List.mem_cons.mp h with h₁ | h₁
      · exact absurd h₁.symm h₀
      · obtain ⟨v, hv⟩ := ih h₁
        exact ⟨v, by simp [lookupPos_cons, h₀, hv]⟩

theorem mem_slotValues_of_lookupPos {m : PosMap} {k : Key} {v : Int}
    (h : lookupPos m k = some v) : v ∈ slotValues m := by
  induction m with
  | nil => simp [lookupPos] at h
  | cons p rest ih =>
    obtain ⟨k₀, v₀⟩ := p
    rw [lookupPos_cons] at h
    rw [slotValues_cons]
    by_cases h₀ : k₀ = k
    · rw [if_pos h₀] at h
      exact (Option.some_inj.mp h) ▸ List.mem_cons_self _ _
    · rw [if_neg h₀] at h
      exact List.mem_cons_of_mem _ (ih h)

theorem posKeys_setPos_of_mem {m : PosMap} {k : Key} (v : Int)
    (h : k ∈ posKeys m) : posKeys (setPos m k v) = posKeys m := by
  induction m with
  | nil => simp [posKeys] at h
  | cons p rest ih =>
    obtain ⟨k₀, v₀⟩ := p
    by_cases h₀ : k₀ = k
    · subst h₀
      simp [setPos, posKeys]
    · rw [posKeys_cons] at h
      rcases List.mem_cons.mp h with h₁ | h₁
      · exact absurd h₁.symm h₀
      · rw [setPos_cons_ne v₀ rest v h₀, posKeys_cons, posKeys_cons, ih h₁]

theorem slotValues_setPos_perm {m : PosMap} {k : Key} {old : Int} (v : Int)
    (h : lookupPos m k = some old) :
    (slotValues (setPos m k v)).Perm (v :: (slotValues m).erase old) := by
  induction m with
  | nil => simp [lookupPos] at h
  | cons p rest ih =>
    obtain ⟨k₀, v₀⟩ := p
    rw [lookupPos_cons] at h
    by_cases h₀ : k₀ = k
    · rw [if_pos h₀] at h
      have hv : v₀ = old := Option.some_inj.mp h
      subst hv
      subst h₀
      simp [setPos, slotValues, List.erase_cons_head]
    · rw [if_neg h₀] at h
      have hperm := ih h
      have hmem : old ∈ slotValues rest := mem_slotValues_of_lookupPos h
      rw [setPos_cons_ne v₀ rest v h₀, slotValues_cons, slotValues_cons]
      by_cases hv₀ : v₀ = old
      · subst hv₀
        rw [List.erase_cons_head]
        exact ((hperm.cons v₀).trans (List.Perm.swap v v₀ _)).trans
          (((List.perm_cons_erase hmem).symm).cons v)
      · rw [List.erase_cons_tail (by simpa using hv₀)]
        exact (hperm.cons v₀).trans (List.Perm.swap v v₀ _)

theorem findOccupant_lookup {ks : List Key} {m : PosMap} {s : Int} {k : Key}
    (h : findOccupant ks m s = some k) : lookupPos m k = some s := by
  have := List.find?_some h
  simpa using this

theorem posKeys_trySwap {m : PosMap} (ks : List Key) {id : Key}
    (c t : Int) (hid : id ∈ posKeys m) :
    posKeys (trySwap m ks id c t) = posKeys m := by
  cases hocc : findOccupant ks m t with
  | none => simp only [trySwap, hocc]
  | some other =>
    simp only [trySwap, hocc]
    by_cases hg : other ≠ "" ∧ other ≠ id
    · rw [if_pos hg]
      have h₁ : posKeys (setPos m id t) = posKeys m := posKeys_setPos_of_mem t hid
      have hmem : other ∈ posKeys (setPos m id t) := by
        rw [h₁]
        exact mem_posKeys_of_lookupPos (findOccupant_lookup hocc)
      rw [posKeys_setPos_of_mem c hmem, h₁]
    · rw [if_neg hg]

theorem trySwap_bijection {m : PosMap} (ks : List Key) {id : Key} {c : Int}
    (t : Int) {N : Nat} (hbij : IsBijectionOnto m N)
    (hid : lookupPos m id = some c) :
    IsBijectionOnto (trySwap m ks id c t) N := by
  obtain ⟨hnd, hperm⟩ := hbij
  cases hocc : findOccupant ks m t with
  | none => simp only [trySwap, hocc]; exact ⟨hnd, hperm⟩
  | some other =>
    simp only [trySwap, hocc]
    by_cases hg : other ≠ "" ∧ other ≠ id
    · rw [if_pos hg]
      have hother : lookupPos m other = some t := findOccupant_lookup hocc
      have h₁k : posKeys (setPos m id t) = posKeys m :=
        posKeys_setPos_of_mem t (mem_posKeys_of_lookupPos hid)
      have hmemo : other ∈ posKeys (setPos m id t) := by
        rw [h₁k]
        exact mem_posKeys_of_lookupPos hother
      have hpk : posKeys (setPos (setPos m id t) other c) = posKeys m := by
        rw [posKeys_setPos_of_mem c hmemo, h₁k]
      refine ⟨by rw [hpk]; exact hnd, ?_⟩
      have h₁ : (slotValues (setPos m id t)).Perm (t :: (slotValues m).erase c) :=
        slotValues_setPos_perm t hid
      have hother₁ : lookupPos (setPos m id t) other = some t := by
        rw [lookupPos_setPos_ne m id other t (fun hcontra => hg.2 hcontra.symm)]
        exact hother
      have h₂ : (slotValues (setPos (setPos m id t) other c)).Perm
          (c :: (slotValues (setPos m id t)).erase t) :=
        slotValues_setPos_perm c hother₁
      have h₃ : ((slotValues (setPos m id t)).erase t).Perm
          ((t :: (slotValues m).erase c).erase t) := h₁.erase t
      rw [List.erase_cons_head] at h₃
      have hc : c ∈ slotValues m := mem_slotValues_of_lookupPos hid
      exact ((h₂.trans (h₃.cons c)).trans
        ((List.perm_cons_erase hc).symm)).trans hperm
    · rw [if_neg hg]
      exact ⟨hnd, hperm⟩

/-! ## Characterisation of the positions effect of the update handlers -/

theorem panUpdate_positions_cases (id : Key) (h : ℚ) (N : Nat) (m : PosMap)
    (sc : ℚ) (st : ItemState) (e : ℚ) :
    (panUpdate id h N m sc st e).2 = m ∨
    (panUpdate id h N m sc st e).2 =
      trySwap m (posKeys m) id ((lookupPos m id).getD 0)
        (panClampedTarget id h N m sc st e) := by
  simp only [panUpdate]
  split_ifs <;> simp

theorem nestableUpdate_positions_cases {α : Type} [LinearOrderedField α]
    (p : NParams α) (hs : HeightMap α) (m : PosMap) (sc : α)
    (st : NItemState α) (e : α) :
    (nestableUpdate p hs m sc st e).2 = m ∨
    ∃ t, (nestableUpdate p hs m sc st e).2 =
      trySwap m p.allKeys p.id ((lookupPos m p.id).getD 0) t := by
  simp only [nestableUpdate]
  split_ifs
  · exact Or.inr ⟨_, rfl⟩
  · exact Or.inl rfl
  · exact Or.inl rfl

theorem applyEvent_cases (m : PosMap) (ev : SwapEvent) :
    applyEvent m ev = m ∨
    ∃ ks t, applyEvent m ev =
      trySwap m ks ev.draggedId ((lookupPos m ev.draggedId).getD 0) t := by
  cases ev with
  | fixedEv id h N sc st e =>
    rcases panUpdate_positions_cases id h N m sc st e with hc | hc
    · exact Or.inl hc
    · exact Or.inr ⟨posKeys m, panClampedTarget id h N m sc st e, hc⟩
  | nestEv p hs sc st e =>
    rcases nestableUpdate_positions_cases p hs m sc st e with hc | ⟨t, hc⟩
    · exact Or.inl hc
    · exact Or.inr ⟨p.allKeys, t, hc⟩

theorem applyEvent_bijection {m : PosMap} {N : Nat} (ev : SwapEvent)
    (hbij : IsBijectionOnto m N) (hmem : ev.draggedId ∈ posKeys m) :
    IsBijectionOnto (applyEvent m ev) N := by
  rcases applyEvent_cases m ev with hc | ⟨ks, t, hc⟩
  · rwa [hc]
  · rw [hc]
    obtain ⟨c, hlook⟩ := lookupPos_isSome_of_mem hmem
    simp only [hlook, Option.getD_some]
    exact trySwap_bijection ks t hbij hlook

theorem applyEvent_posKeys (m : PosMap) (ev : SwapEvent)
    (hmem : ev.draggedId ∈ posKeys m) :
    posKeys (applyEvent m ev) = posKeys m := by
  rcases applyEvent_cases m ev with hc | ⟨ks, t, hc⟩
  · rw [hc]
  · rw [hc]
    exact posKeys_trySwap ks _ t hmem

/-! ## The claims -/

/-- Claim C1: for every active drag and every pointer-move event, the
dragged item's rendered offset equals the initial rest offset captured at
activation plus the pointer delta plus the scroll delta; the auto-scroll
frame tick re-applies the same formula immediately after changing the
scroll offset; and `pan.onStart` captures the rest offset of the current
slot as `startTop`. -/
theorem claim1_rendered_offset_formula :
    (∀ (id : Key) (h : ℚ) (N : Nat) (m : PosMap) (sc : ℚ) (st : ItemState) (e : ℚ),
      ((panUpdate id h N m sc st e).1).top =
        st.startTop + (e - st.startY) + (sc - st.startScrollY))
    ∧ (∀ (st : ItemState) (sc cT cH ctH ns : ℚ),
      (frameTick st sc cT cH ctH).scrollCommand = some ns →
      (frameTick st sc cT cH ctH).state.top =
        st.startTop + (st.currentFingerY - st.startY) + (ns - st.startScrollY))
    ∧ (∀ (p : NParams ℝ) (hs : HeightMap ℝ) (m : PosMap) (sc : ℝ)
        (st : NItemState ℝ) (e : ℝ),
      ((nestableUpdate p hs m sc st e).1).top =
        st.startTop + (e - st.startY) + (sc - st.startScrollY))
    ∧ (∀ (id : Key) (h : ℚ) (m : PosMap) (sc : ℚ) (st : ItemState) (e : ℚ),
      (panStart id h m sc st e).startTop =
        (((lookupPos m id).getD 0 : Int) : ℚ) * h ∧
      (panStart id h m sc st e).top = (panStart id h m sc st e).startTop) := by
  refine ⟨?_, ?_, ?_, ?_⟩
  · intro id h N m sc st e
    simp only [panUpdate, panUpdateNewTop]
    split_ifs <;> rfl
  · intro st sc cT cH ctH ns hcmd
    simp only [frameTick] at hcmd ⊢
    split_ifs at hcmd ⊢ <;>
      first
        | (obtain hns := Option.some_inj.mp hcmd; rw [← hns])
        | simp at hcmd
  · intro p hs m sc st e
    simp only [nestableUpdate]
    split_ifs <;> rfl
  · intro id h m sc st e
    exact ⟨rfl, rfl⟩

/-- Witness for C1: a concrete frame tick that auto-scrolls (finger 20px
from the bottom edge, moving down) re-applies the rendered-offset formula
with the newly commanded scroll offset 27542/3375. -/
theorem claim1_witness :
    (frameTick exTickState 0 0 500 1000).state.top =
      exTickState.startTop + (exTickState.currentFingerY - exTickState.startY) +
        (27542 / 3375 - exTickState.startScrollY) :=
  claim1_rendered_offset_formula.2.1 exTickState 0 0 500 1000 (27542 / 3375)
    (by norm_num [frameTick, exTickState, getProgressiveSpeed, AUTO_SCROLL_THRESHOLD,
      AUTO_SCROLL_MAX_SPEED, AUTO_SCROLL_MIN_SPEED])

/-- Claim C6: every scroll offset commanded by an auto-scroll frame tick,
in both variants, lies within `[0, max 0 (contentHeight - containerHeight)]`,
and the nestable tick stores exactly the commanded offset back into the
tracked scroll value. -/
theorem claim6_autoscroll_clamped :
    (∀ (st : ItemState) (sc cT cH ctH c : ℚ),
      (frameTick st sc cT cH ctH).scrollCommand = some c →
      0 ≤ c ∧ c ≤ max 0 (ctH - cH))
    ∧ (∀ (T mn mx sm : ℝ) (st : NItemState ℝ) (sc cT cH ctH c : ℝ),
      (nestableFrameTick T mn mx sm st sc cT cH ctH).scrollCommand = some c →
      (0 ≤ c ∧ c ≤ max 0 (ctH - cH)) ∧
      (nestableFrameTick T mn mx sm st sc cT cH ctH).scrollY = c) := by
  constructor
  · intro st sc cT cH ctH c hcmd
    simp only [frameTick] at hcmd
    split_ifs at hcmd <;>
      first
        | (obtain hc := Option.some_inj.mp hcmd
           rw [← hc]
           exact ⟨le_max_left _ _, max_le (le_max_left _ _) (min_le_left _ _)⟩)
        | simp at hcmd
  · intro T mn mx sm st sc cT cH ctH c hcmd
    simp only [nestableFrameTick] at hcmd ⊢
    split_ifs at hcmd ⊢ <;>
      first
        | (obtain hc := Option.some_inj.mp hcmd
           rw [← hc]
           exact ⟨⟨le_max_left _ _, max_le (le_max_left _ _) (min_le_left _ _)⟩, rfl⟩)
        | simp at hcmd

/-- Witness for C6: a nestable tick with carried velocity 1 and zero
smoothing, finger in neither edge zone, commands offset 1, which lies in
`[0, max 0 (2000 - 1000)]` and is stored back into the scroll value. -/
theorem claim6_witness :
    ((0:ℝ) ≤ 1 ∧ (1:ℝ) ≤ max 0 (2000 - 1000)) ∧
      (nestableFrameTick 100 1 12 0 exNTickState 0 0 1000 2000).scrollY = 1 := by
  refine claim6_autoscroll_clamped.2 100 1 12 0 exNTickState 0 0 1000 2000 1 ?_
  rw [nestableFrameTick]
  simp only [exNTickState, lerp]
  norm_num

/-- Claim C7: if the clamped target slot computed by a pointer update has
no occupant in the positions table, or its occupant is the dragged item
itself, the swap is a no-op: the positions table is returned exactly
unchanged (shown for the fixed-height variant and the simple variant). -/
theorem claim7_missing_or_self_occupant_noop :
    (∀ (id : Key) (h : ℚ) (N : Nat) (m : PosMap) (sc : ℚ) (st : ItemState) (e : ℚ),
      (findOccupant (posKeys m) m (panClampedTarget id h N m sc st e) = none ∨
       findOccupant (posKeys m) m (panClampedTarget id h N m sc st e) = some id) →
      (panUpdate id h N m sc st e).2 = m)
    ∧ (∀ (id : Key) (h : ℚ) (N : Nat) (m : PosMap) (sc : ℚ)
        (st : SimpleItemState) (e : ℚ),
      (findOccupant (posKeys m) m (simpleClampedIndex h N sc e) = none ∨
       findOccupant (posKeys m) m (simpleClampedIndex h N sc e) = some id) →
      (simpleUpdate id h N m sc st e).2 = m) := by
  constructor
  · intro id h N m sc st e hocc
    have hts : trySwap m (posKeys m) id ((lookupPos m id).getD 0)
        (panClampedTarget id h N m sc st e) = m := by
      rcases hocc with hocc | hocc
      · simp only [trySwap, hocc]
      · simp only [trySwap, hocc]
        rw [if_neg (fun hh => hh.2 rfl)]
    simp only [panUpdate]
    split_ifs <;> simp [hts]
  · intro id h N m sc st e hocc
    have hts : trySwap m (posKeys m) id ((lookupPos m id).getD 0)
        (simpleClampedIndex h N sc e) = m := by
      rcases hocc with hocc | hocc
      · simp only [trySwap, hocc]
      · simp only [trySwap, hocc]
        rw [if_neg (fun hh => hh.2 rfl)]
    simp only [simpleUpdate]
    split_ifs <;> simp [hts]

/-- Witness for C7: dragging the item of slot 0 past the threshold toward
slot 1 in a table whose slot 1 is unoccupied leaves the table exactly
unchanged. -/
theorem claim7_witness :
    (panUpdate "a" 100 3 exPositionsGap 0 exStateGap 51).2 = exPositionsGap :=
  claim7_missing_or_self_occupant_noop.1 "a" 100 3 exPositionsGap 0 exStateGap 51
    (Or.inl (by
      have h1 : panClampedTarget "a" 100 3 exPositionsGap 0 exStateGap 51 = 1 := by
        norm_num [panClampedTarget, panDisplacement, panUpdateNewTop,
          exPositionsGap, exStateGap, lookupPos, List.find?]
      rw [h1]
      decide))

/-- Amended claim C9: in the long-press variants (DraggableItem.tsx and
NestableDraggableFlatList.tsx), a gesture finalize without a preceding
drag activation (`isDragging` never set) is a no-op: the item state is
returned unchanged, no settle animation is started, so the drag-finalize
notification is never invoked, and the positions table is untouched. -/
theorem claim9_amended_finalize_without_drag_noop :
    (∀ (id : Key) (h : ℚ) (m : PosMap) (st : ItemState),
      st.isDragging = false → panFinalize id h m st = ⟨st, none⟩)
    ∧ (∀ (α : Type) (inst : LinearOrderedField α) (p : NParams α)
        (hs : HeightMap α) (m : PosMap) (st : NItemState α),
      st.isDragging = false → nestableFinalize p hs m st = ⟨st, none, none⟩) := by
  constructor
  · intro id h m st hd
    simp [panFinalize, hd]
  · intro α inst p hs m st hd
    simp [nestableFinalize, hd]

/-- Witness for C9 (amended): a concrete never-dragged state passes
through `pan.onFinalize` untouched, with no settle spring started. -/
theorem claim9_witness :
    panFinalize "a" 100 [("a", 0)] exIdleState = ⟨exIdleState, none⟩ :=
  claim9_amended_finalize_without_drag_noop.1 "a" 100 [("a", 0)] exIdleState rfl

/-- Counterexample to C9 as stated: in the simple variant (index.tsx,
lines 91-97) the finalize handler has no drag guard — run on a state whose
`isDragging` was never set, it still schedules the drag-finalize
notification (and starts a settle spring), so the claimed no-op fails. -/
theorem claim9_counterexample :
    exSimpleIdle.isDragging = false ∧
    (simpleFinalize "a" 100 [("a", 0)] exSimpleIdle).finalizeScheduled = true := by
  exact ⟨rfl, rfl⟩

/-- Claim C2: starting from a positions table that is a bijection from
its keys onto `{0, …, N-1}`, any finite sequence of pointer-update swap
operations (of either drag-item variant) leaves the table a bijection
onto `{0, …, N-1}` — every slot has exactly one occupant, with no
duplicates and no gaps. -/
theorem claim2_bijection_preserved (events : List SwapEvent) (m : PosMap)
    (N : Nat) (hbij : IsBijectionOnto m N)
    (hids : ∀ ev ∈ events, ev.draggedId ∈ posKeys m) :
    IsBijectionOnto (events.foldl applyEvent m) N := by
  induction events generalizing m with
  | nil => simpa using hbij
  | cons ev rest ih =>
    rw [List.foldl_cons]
    have hmem : ev.draggedId ∈ posKeys m := hids ev (List.mem_cons_self _ _)
    refine ih (applyEvent m ev) (applyEvent_bijection ev hbij hmem) ?_
    intro e he
    rw [applyEvent_posKeys m ev hmem]
    exact hids e (List.mem_cons_of_mem _ he)

/-- Witness for C2: one concrete pointer-update (item of slot 1 in a
2-item table, displaced past the threshold) leaves the table a bijection
onto `{0, 1}`. -/
theorem claim2_witness :
    IsBijectionOnto
      ([SwapEvent.fixedEv "b" 100 2 0 exTickState 151].foldl applyEvent
        exPositionsTwo) 2 :=
  claim2_bijection_preserved _ exPositionsTwo 2 (by decide)
    (by
      intro ev hev
      rcases List.mem_singleton.mp hev with rfl
      decide)

/-- Counterexample to C3 as stated: with the dragged item already in the
last slot (2-item list, item height 100), a displacement of exactly
`0.5 × itemHeight + 1` crosses the threshold, but the target index is
clamped back to the current slot and no swap is triggered — the positions
table is returned exactly unchanged, refuting "always triggers a swap". -/
theorem claim3_counterexample :
    panDisplacement "b" 100 exPositionsTwo 0 exStateLast 51 =
      100 * SWAP_THRESHOLD + 1 ∧
    (panUpdate "b" 100 2 exPositionsTwo 0 exStateLast 51).2 = exPositionsTwo := by
  have hlk : lookupPos exPositionsTwo "b" = some 1 := rfl
  have hd : panDisplacement "b" 100 exPositionsTwo 0 exStateLast 51 = 51 := by
    simp only [panDisplacement, panUpdateNewTop, hlk, Option.getD_some, exStateLast]
    norm_num
  have hct : panClampedTarget "b" 100 2 exPositionsTwo 0 exStateLast 51 = 1 := by
    simp only [panClampedTarget, hd, hlk, Option.getD_some]
    norm_num
  refine ⟨by rw [hd]; norm_num [SWAP_THRESHOLD], ?_⟩
  simp only [panUpdate, hd, hct, hlk, Option.getD_some]
  norm_num [SWAP_THRESHOLD]

/-- Amended claim C3: in the fixed-height variant, a displacement of
`0.5 × itemHeight − ε` (in magnitude) never triggers a swap; a
displacement of `0.5 × itemHeight + ε` triggers the swap whenever the
adjacent slot in the displacement's direction exists (the clamped target
differs from the current slot) and is occupied by a different item with a
truthy key — the dragged item then moves to that slot. -/
theorem claim3_amended_threshold :
    (∀ (id : Key) (h : ℚ) (N : Nat) (m : PosMap) (sc : ℚ) (st : ItemState)
        (e ε : ℚ), 0 < ε →
      |panDisplacement id h m sc st e| = h * SWAP_THRESHOLD - ε →
      (panUpdate id h N m sc st e).2 = m)
    ∧ (∀ (id : Key) (h : ℚ) (N : Nat) (m : PosMap) (sc : ℚ) (st : ItemState)
        (e ε : ℚ) (c : Int) (other : Key), 0 < h → 0 < ε → 0 ≤ c →
      lookupPos m id = some c → c + 1 ≤ (N : Int) - 1 →
      panDisplacement id h m sc st e = h * SWAP_THRESHOLD + ε →
      findOccupant (posKeys m) m (c + 1) = some other →
      other ≠ "" → other ≠ id →
      lookupPos ((panUpdate id h N m sc st e).2) id = some (c + 1))
    ∧ (∀ (id : Key) (h : ℚ) (N : Nat) (m : PosMap) (sc : ℚ) (st : ItemState)
        (e ε : ℚ) (c : Int) (other : Key), 0 < h → 0 < ε → 1 ≤ c →
      lookupPos m id = some c → c ≤ (N : Int) - 1 →
      panDisplacement id h m sc st e = -(h * SWAP_THRESHOLD + ε) →
      findOccupant (posKeys m) m (c - 1) = some other →
      other ≠ "" → other ≠ id →
      lookupPos ((panUpdate id h N m sc st e).2) id = some (c - 1)) := by
  have hST : SWAP_THRESHOLD = 1 / 2 := by norm_num [SWAP_THRESHOLD]
  refine ⟨?_, ?_, ?_⟩
  · intro id h N m sc st e ε hε hdisp
    simp only [panUpdate]
    rw [if_neg (not_lt.mpr (by rw [hdisp]; linarith))]
  · intro id h N m sc st e ε c other hh hε hc hlook hcN hdisp hocc hne hneid
    have hpos : (0 : ℚ) < h * SWAP_THRESHOLD + ε := by
      rw [hST]; nlinarith
    have hclamp : panClampedTarget id h N m sc st e = c + 1 := by
      simp only [panClampedTarget, hlook, Option.getD_some, hdisp]
      rw [if_pos hpos, min_eq_left hcN, max_eq_right (by omega : (0 : Int) ≤ c + 1)]
    simp only [panUpdate, hlook, Option.getD_some, hdisp, hclamp]
    rw [if_pos (by rw [abs_of_pos hpos, hST]; nlinarith),
      if_pos (by omega : c + 1 ≠ c)]
    simp only [trySwap, hocc, if_pos (And.intro hne hneid)]
    rw [lookupPos_setPos_ne _ other id c (fun hcontra => hneid hcontra)]
    exact lookupPos_setPos_self m id (c + 1)
  · intro id h N m sc st e ε c other hh hε hc hlook hcN hdisp hocc hne hneid
    have hpos : (0 : ℚ) < h * SWAP_THRESHOLD + ε := by
      rw [hST]; nlinarith
    have hneg : panDisplacement id h m sc st e < 0 := by rw [hdisp]; linarith
    have hclamp : panClampedTarget id h N m sc st e = c - 1 := by
      simp only [panClampedTarget, hlook, Option.getD_some]
      rw [if_neg (not_lt.mpr (le_of_lt hneg)),
        min_eq_left (by omega : c - 1 ≤ (N : Int) - 1),
        max_eq_right (by omega : (0 : Int) ≤ c - 1)]
    simp only [panUpdate, hlook, Option.getD_some, hdisp, hclamp]
    rw [if_pos (by rw [abs_neg, abs_of_pos hpos, hST]; nlinarith),
      if_pos (by omega : c - 1 ≠ c)]
    simp only [trySwap, hocc, if_pos (And.intro hne hneid)]
    rw [lookupPos_setPos_ne _ other id c (fun hcontra => hneid hcontra)]
    exact lookupPos_setPos_self m id (c - 1)

/-- Witness for C3 (amended): dragging the item of slot 0 in a 3-item
table with displacement `0.5 × 100 + 1` swaps it into slot 1. -/
theorem claim3_witness :
    lookupPos ((panUpdate "a" 100 3 exPositionsThree 0 exStateFirst 51).2) "a" =
      some (0 + 1) :=
  claim3_amended_threshold.2.1 "a" 100 3 exPositionsThree 0 exStateFirst 51 1 0 "b"
    (by norm_num) (by norm_num) (by norm_num) rfl (by norm_num)
    (by
      have hlk : lookupPos exPositionsThree "a" = some 0 := rfl
      simp only [panDisplacement, panUpdateNewTop, hlk, Option.getD_some, exStateFirst]
      norm_num [SWAP_THRESHOLD])
    (by decide) (by decide) (by decide)

theorem foldl_add_sum {α : Type} [AddCommMonoid α] (g : Nat → α) (l : List Nat) :
    ∀ a : α, l.foldl (fun acc i => acc + g i) a = a + (l.map g).sum := by
  induction l with
  | nil => intro a; simp
  | cons x xs ih => intro a; simp [List.foldl_cons, ih, add_assoc]

/-- Claim C5: in the variable-height variant, the rest offset of slot `s`
computed by `getItemOffset` equals the sum over slots `0 … s-1` of the
occupying item's measured height with the estimated height as fallback
(`specSlotOffset`, written from the spec); with heights
`{a:50, b:70, c:60}` and slots `{a:0, b:1, c:2}` the offset of `c` is
120, and 130 after `b`'s height is measured-updated to 80. -/
theorem claim5_variable_height_offset :
    (∀ (α : Type) (inst : LinearOrderedField α) (heights : HeightMap α)
        (positions : PosMap) (s : Nat) (keys : List Key) (est : α),
      "" ∉ keys →
      getItemOffset heights positions (s : Int) keys est =
        specSlotOffset heights positions s keys est)
    ∧ getItemOffset exHeights exPositionsThree 2 ["a", "b", "c"] 60 = 120
    ∧ getItemOffset (setHeight exHeights "b" 80) exPositionsThree 2
        ["a", "b", "c"] 60 = 130 := by
  have hrange : List.range 2 = [0, 1] := rfl
  have htn : ((2 : Int)).toNat = 2 := rfl
  have hf0 : ["a", "b", "c"].find?
      (fun k => decide (lookupPos exPositionsThree k = some ((0 : Nat) : Int))) =
      some "a" := rfl
  have hf1 : ["a", "b", "c"].find?
      (fun k => decide (lookupPos exPositionsThree k = some ((1 : Nat) : Int))) =
      some "b" := rfl
  have hne : ("a" : Key) ≠ "" := by decide
  have hne' : ("b" : Key) ≠ "" := by decide
  refine ⟨?_, ?_, ?_⟩
  · intro α inst heights positions s keys est hno
    rw [getItemOffset, specSlotOffset, Int.toNat_ofNat]
    rw [List.foldl_ext _ (fun (acc : α) (i : Nat) => acc +
        (match keys.find? (fun k => decide (lookupPos positions k = some (i : Int))) with
          | some k => (lookupHeight heights k).getD est
          | none => est)) 0 ?_]
    · rw [foldl_add_sum, zero_add]
    · intro a i _
      cases hf : keys.find? (fun k => decide (lookupPos positions k = some (i : Int))) with
      | none => simp [hf]
      | some k =>
        have hk : k ∈ keys := List.mem_of_find?_eq_some hf
        have hkne : k ≠ "" := fun hk0 => hno (hk0 ▸ hk)
        simp [hf, hkne]
  · rw [getItemOffset, htn, hrange]
    simp only [List.foldl_cons, List.foldl_nil, hf0, hf1, if_pos hne, if_pos hne']
    rw [show lookupHeight exHeights "a" = some 50 from rfl,
      show lookupHeight exHeights "b" = some 70 from rfl]
    norm_num
  · rw [getItemOffset, htn, hrange]
    simp only [List.foldl_cons, List.foldl_nil, hf0, hf1, if_pos hne, if_pos hne']
    rw [show lookupHeight (setHeight exHeights "b" 80) "a" = some 50 from rfl,
      show lookupHeight (setHeight exHeights "b" 80) "b" = some 80 from rfl]
    norm_num

/-- Witness for C5: the general offset identity instantiated at the
concrete three-item example (its only hypothesis, that no key is the
empty string, holds for `["a", "b", "c"]`). -/
theorem claim5_witness :
    getItemOffset exHeights exPositionsThree ((2 : Nat) : Int) ["a", "b", "c"]
      (60 : ℚ) = specSlotOffset exHeights exPositionsThree 2 ["a", "b", "c"] 60 :=
  claim5_variable_height_offset.1 ℚ inferInstance exHeights exPositionsThree 2
    ["a", "b", "c"] 60 (by decide)

/-- Claim C8: both auto-scroll speed functions — the cubic
`getProgressiveSpeed` (with its configured constants) and the sine-based
`getTargetSpeed` (with configured threshold and min/max speeds) — are
monotonically non-increasing in the distance from the edge, equal the
maximum speed at distance 0, equal the minimum speed at or beyond the
threshold, and stay within `[min, max]` for every non-negative distance. -/
theorem claim8_speed_functions_monotone_bounded (T mn mx : ℝ)
    (hT : 0 < T) (hmm : mn ≤ mx) :
    (∀ d1 d2 : ℝ, 0 ≤ d1 → d1 ≤ d2 →
      getTargetSpeed T mn mx d2 ≤ getTargetSpeed T mn mx d1)
    ∧ getTargetSpeed T mn mx 0 = mx
    ∧ (∀ d : ℝ, T ≤ d → getTargetSpeed T mn mx d = mn)
    ∧ (∀ d : ℝ, 0 ≤ d →
      mn ≤ getTargetSpeed T mn mx d ∧ getTargetSpeed T mn mx d ≤ mx)
    ∧ (∀ d1 d2 : ℚ, 0 ≤ d1 → d1 ≤ d2 →
      getProgressiveSpeed d2 ≤ getProgressiveSpeed d1)
    ∧ getProgressiveSpeed 0 = AUTO_SCROLL_MAX_SPEED
    ∧ (∀ d : ℚ, AUTO_SCROLL_THRESHOLD ≤ d →
      getProgressiveSpeed d = AUTO_SCROLL_MIN_SPEED)
    ∧ (∀ d : ℚ, 0 ≤ d →
      AUTO_SCROLL_MIN_SPEED ≤ getProgressiveSpeed d ∧
      getProgressiveSpeed d ≤ AUTO_SCROLL_MAX_SPEED) := by
  have hnd0 : ∀ d : ℝ, 0 ≤ min 1 (max 0 (d / T)) :=
    fun d => le_min zero_le_one (le_max_left 0 _)
  have hnd1 : ∀ d : ℝ, min 1 (max 0 (d / T)) ≤ 1 := fun d => min_le_left _ _
  have hndmono : ∀ d1 d2 : ℝ, d1 ≤ d2 →
      min 1 (max 0 (d1 / T)) ≤ min 1 (max 0 (d2 / T)) :=
    fun d1 d2 h =>
      min_le_min (le_refl 1) (max_le_max (le_refl 0) ((div_le_div_right hT).mpr h))
  have heasedmono : ∀ n1 n2 : ℝ, 0 ≤ n1 → n2 ≤ 1 → n1 ≤ n2 →
      (1 - Real.cos ((1 - n2) * Real.pi)) / 2 ≤
        (1 - Real.cos ((1 - n1) * Real.pi)) / 2 := by
    intro n1 n2 h0 h1 h12
    have hcos : Real.cos ((1 - n1) * Real.pi) ≤ Real.cos ((1 - n2) * Real.pi) := by
      refine Real.cos_le_cos_of_nonneg_of_le_pi
        (mul_nonneg (by linarith) Real.pi_nonneg) ?_
        (mul_le_mul_of_nonneg_right (by linarith) Real.pi_nonneg)
      have h2 : (1 - n1) * Real.pi ≤ 1 * Real.pi :=
        mul_le_mul_of_nonneg_right (by linarith) Real.pi_nonneg
      simpa using h2
    linarith
  have heased0 : ∀ n : ℝ, 0 ≤ (1 - Real.cos ((1 - n) * Real.pi)) / 2 := by
    intro n
    have := Real.cos_le_one ((1 - n) * Real.pi)
    linarith
  have heased1 : ∀ n : ℝ, (1 - Real.cos ((1 - n) * Real.pi)) / 2 ≤ 1 := by
    intro n
    have := Real.neg_one_le_cos ((1 - n) * Real.pi)
    linarith
  have hq0 : ∀ d : ℚ, 0 ≤ min 1 (max 0 (d / AUTO_SCROLL_THRESHOLD)) :=
    fun d => le_min zero_le_one (le_max_left 0 _)
  have hq1 : ∀ d : ℚ, min 1 (max 0 (d / AUTO_SCROLL_THRESHOLD)) ≤ 1 :=
    fun d => min_le_left _ _
  have hqT : (0 : ℚ) < AUTO_SCROLL_THRESHOLD := by norm_num [AUTO_SCROLL_THRESHOLD]
  have hqmono : ∀ d1 d2 : ℚ, d1 ≤ d2 →
      min 1 (max 0 (d1 / AUTO_SCROLL_THRESHOLD)) ≤
        min 1 (max 0 (d2 / AUTO_SCROLL_THRESHOLD)) :=
    fun d1 d2 h =>
      min_le_min (le_refl 1) (max_le_max (le_refl 0) ((div_le_div_right hqT).mpr h))
  refine ⟨?_, ?_, ?_, ?_, ?_, ?_, ?_, ?_⟩
  · intro d1 d2 h0 h12
    simp only [getTargetSpeed]
    exact add_le_add_left
      (mul_le_mul_of_nonneg_left
        (heasedmono _ _ (hnd0 d1) (hnd1 d2) (hndmono d1 d2 h12))
        (sub_nonneg.mpr hmm)) mn
  · simp only [getTargetSpeed, zero_div, max_self, min_eq_right zero_le_one,
      sub_zero, one_mul, Real.cos_pi]
    ring
  · intro d hTd
    have h1d : (1 : ℝ) ≤ d / T := (one_le_div hT).mpr hTd
    simp only [getTargetSpeed,
      max_eq_right (le_trans zero_le_one h1d), min_eq_left h1d,
      sub_self, zero_mul, Real.cos_zero]
    ring
  · intro d _
    simp only [getTargetSpeed]
    constructor
    · have := mul_nonneg (sub_nonneg.mpr hmm) (heased0 (min 1 (max 0 (d / T))))
      linarith
    · have := mul_le_mul_of_nonneg_left (heased1 (min 1 (max 0 (d / T))))
        (sub_nonneg.mpr hmm)
      linarith
  · intro d1 d2 h0 h12
    simp only [getProgressiveSpeed]
    have hcube : (1 - min 1 (max 0 (d2 / AUTO_SCROLL_THRESHOLD))) ^ 3 ≤
        (1 - min 1 (max 0 (d1 / AUTO_SCROLL_THRESHOLD))) ^ 3 :=
      pow_le_pow_left (by linarith [hq1 d2]) (by linarith [hqmono d1 d2 h12]) 3
    have hcoef : (0 : ℚ) ≤ AUTO_SCROLL_MAX_SPEED - AUTO_SCROLL_MIN_SPEED := by
      norm_num [AUTO_SCROLL_MAX_SPEED, AUTO_SCROLL_MIN_SPEED]
    exact add_le_add_left (mul_le_mul_of_nonneg_left hcube hcoef) _
  · simp only [getProgressiveSpeed]
    norm_num [AUTO_SCROLL_THRESHOLD, AUTO_SCROLL_MAX_SPEED, AUTO_SCROLL_MIN_SPEED]
  · intro d hTd
    have h1d : (1 : ℚ) ≤ d / AUTO_SCROLL_THRESHOLD := (one_le_div hqT).mpr hTd
    simp only [getProgressiveSpeed,
      max_eq_right (le_trans zero_le_one h1d), min_eq_left h1d]
    norm_num
  · intro d _
    simp only [getProgressiveSpeed]
    have hcoef : (0 : ℚ) ≤ AUTO_SCROLL_MAX_SPEED - AUTO_SCROLL_MIN_SPEED := by
      norm_num [AUTO_SCROLL_MAX_SPEED, AUTO_SCROLL_MIN_SPEED]
    have hcube0 : (0 : ℚ) ≤ (1 - min 1 (max 0 (d / AUTO_SCROLL_THRESHOLD))) ^ 3 :=
      pow_nonneg (by linarith [hq1 d]) 3
    have hcube1 : (1 - min 1 (max 0 (d / AUTO_SCROLL_THRESHOLD))) ^ 3 ≤ 1 :=
      pow_le_one₀ (by linarith [hq1 d]) (by linarith [hq0 d])
    constructor
    · have := mul_nonneg hcoef hcube0
      linarith
    · have := mul_le_mul_of_nonneg_left hcube1 hcoef
      linarith

/-- Witness for C8: at the nestable variant's default configuration
(threshold 100, speeds 1..12) the sine-eased speed at the very edge is
the maximum speed, 12. -/
theorem claim8_witness : getTargetSpeed 100 1 12 0 = 12 :=
  (claim8_speed_functions_monotone_bounded 100 1 12 (by norm_num) (by norm_num)).2.1

/-! ## Lemmas about JS-array writes and the finalize fold -/

theorem jsarraySet_length_le {α : Type} (arr : List (Option α)) (i : Int) (v : α) :
    arr.length ≤ (jsarraySet arr i v).length := by
  simp only [jsarraySet]
  split_ifs with h0 hlen
  · simp
  · simp only [List.length_append, List.length_replicate, List.length_cons,
      List.length_nil]
    omega
  · exact le_refl _

theorem jsarraySet_length_eq {α : Type} (arr : List (Option α)) (i : Int) (v : α)
    (hin : 0 ≤ i → i.toNat < arr.length) : (jsarraySet arr i v).length = arr.length := by
  simp only [jsarraySet]
  split_ifs with h0 hlen
  · simp
  · exact absurd (hin h0) hlen
  · rfl

theorem jsarraySet_getElem?_self {α : Type} (arr : List (Option α)) (i : Int) (v : α)
    (h0 : 0 ≤ i) : (jsarraySet arr i v)[i.toNat]? = some (some v) := by
  simp only [jsarraySet]
  rw [if_pos h0]
  split_ifs with hlen
  · simp [List.getElem?_set_self hlen]
  · rw [List.getElem?_append_right
      (by simp only [List.length_append, List.length_replicate]; omega :
        (arr ++ List.replicate (i.toNat - arr.length) (none : Option α)).length ≤
          i.toNat)]
    have hidx : i.toNat -
        (arr ++ List.replicate (i.toNat - arr.length) (none : Option α)).length = 0 := by
      simp only [List.length_append, List.length_replicate]
      omega
    rw [hidx]
    rfl

theorem jsarraySet_getElem?_ne {α : Type} (arr : List (Option α)) (i : Int) (v : α)
    (j : Nat) (hj : j < arr.length) (hne : ¬(0 ≤ i ∧ i.toNat = j)) :
    (jsarraySet arr i v)[j]? = arr[j]? := by
  simp only [jsarraySet]
  split_ifs with h0 hlen
  · exact List.getElem?_set_ne (by intro hc; exact hne ⟨h0, hc⟩)
  · rw [List.getElem?_append_left
      (by simp only [List.length_append, List.length_replicate]; omega :
        j < (arr ++ List.replicate (i.toNat - arr.length) (none : Option α)).length),
      List.getElem?_append_left hj]
  · rfl

theorem finalizeStep_length_le {α : Type} (keyOf : α → Key) (m : PosMap)
    (acc : List (Option α)) (it : α) :
    acc.length ≤ (finalizeStep keyOf m acc it).length := by
  unfold finalizeStep
  cases lookupPos m (keyOf it) with
  | none => exact le_refl _
  | some p => exact jsarraySet_length_le acc p it

theorem foldl_finalizeStep_length_le {α : Type} (keyOf : α → Key) (m : PosMap)
    (l : List α) : ∀ acc : List (Option α),
    acc.length ≤ (l.foldl (finalizeStep keyOf m) acc).length := by
  induction l with
  | nil => intro acc; exact le_refl _
  | cons it rest ih =>
    intro acc
    rw [List.foldl_cons]
    exact le_trans (finalizeStep_length_le keyOf m acc it) (ih _)

theorem foldl_finalizeStep_length_eq {α : Type} (keyOf : α → Key) (m : PosMap)
    (l : List α) : ∀ acc : List (Option α),
    (∀ it ∈ l, ∀ p : Int, lookupPos m (keyOf it) = some p → 0 ≤ p →
      p.toNat < acc.length) →
    (l.foldl (finalizeStep keyOf m) acc).length = acc.length := by
  induction l with
  | nil => intro acc _; rfl
  | cons it rest ih =>
    intro acc hin
    rw [List.foldl_cons]
    have hstep : (finalizeStep keyOf m acc it).length = acc.length := by
      unfold finalizeStep
      cases hl : lookupPos m (keyOf it) with
      | none => rfl
      | some p =>
        exact jsarraySet_length_eq acc p it
          (fun h0 => hin it (List.mem_cons_self _ _) p hl h0)
    rw [ih (finalizeStep keyOf m acc it)
      (fun it' hit' p hl h0 => hstep ▸ hin it' (List.mem_cons_of_mem _ hit') p hl h0)]
    exact hstep

theorem foldl_finalizeStep_getElem?_frozen {α : Type} (keyOf : α → Key) (m : PosMap)
    (l : List α) : ∀ (acc : List (Option α)) (j : Nat), j < acc.length →
    (∀ it ∈ l, ∀ p : Int, lookupPos m (keyOf it) = some p → ¬(0 ≤ p ∧ p.toNat = j)) →
    (l.foldl (finalizeStep keyOf m) acc)[j]? = acc[j]? := by
  induction l with
  | nil => intro acc j _ _; rfl
  | cons it rest ih =>
    intro acc j hj hno
    rw [List.foldl_cons]
    have hstep : (finalizeStep keyOf m acc it)[j]? = acc[j]? := by
      unfold finalizeStep
      cases hl : lookupPos m (keyOf it) with
      | none => rfl
      | some p =>
        exact jsarraySet_getElem?_ne acc p it j hj
          (hno it (List.mem_cons_self _ _) p hl)
    rw [ih (finalizeStep keyOf m acc it) j
      (lt_of_lt_of_le hj (finalizeStep_length_le keyOf m acc it))
      (fun it' hit' p hl => hno it' (List.mem_cons_of_mem _ hit') p hl)]
    exact hstep

theorem foldl_finalizeStep_getElem?_hit {α : Type} (keyOf : α → Key) (m : PosMap)
    (it : α) (l₂ : List α) (acc : List (Option α)) (p : Int)
    (hl : lookupPos m (keyOf it) = some p) (h0 : 0 ≤ p)
    (hno : ∀ it' ∈ l₂, ∀ p' : Int, lookupPos m (keyOf it') = some p' →
      ¬(0 ≤ p' ∧ p'.toNat = p.toNat)) :
    ((it :: l₂).foldl (finalizeStep keyOf m) acc)[p.toNat]? = some (some it) := by
  rw [List.foldl_cons]
  have hstep : (finalizeStep keyOf m acc it)[p.toNat]? = some (some it) := by
    unfold finalizeStep
    rw [hl]
    exact jsarraySet_getElem?_self acc p it h0
  have hlt : p.toNat < (finalizeStep keyOf m acc it).length := by
    by_contra hge
    rw [List.getElem?_eq_none (by omega)] at hstep
    exact Option.noConfusion hstep
  rw [foldl_finalizeStep_getElem?_frozen keyOf m l₂ _ p.toNat hlt hno]
  exact hstep

/-- Claim C4: if `handleDragFinalize` runs while the positions table maps
each data key to a distinct in-range slot (a bijection onto
`{0, …, N-1}`), the reported array has length N and the item whose key
maps to slot `i` sits at index `i`; in particular, when every key still
maps to its original index, the reported array is the original data
order. -/
theorem claim4_finalize_slot_order {α : Type} (data : List α) (keyOf : α → Key)
    (m : PosMap)
    (hin : ∀ it ∈ data, ∃ p : Int, lookupPos m (keyOf it) = some p ∧ 0 ≤ p ∧
      p.toNat < data.length)
    (hnd : (data.map (fun it => lookupPos m (keyOf it))).Nodup) :
    (handleDragFinalize data keyOf m).length = data.length
    ∧ (∀ it ∈ data, ∀ p : Int, lookupPos m (keyOf it) = some p → 0 ≤ p →
      (handleDragFinalize data keyOf m)[p.toNat]? = some (some it))
    ∧ ((∀ (i : Nat) (hi : i < data.length),
        lookupPos m (keyOf (data.get ⟨i, hi⟩)) = some (i : Int)) →
      handleDragFinalize data keyOf m = data.map some) := by
  have hlen : (handleDragFinalize data keyOf m).length = data.length := by
    rw [handleDragFinalize,
      foldl_finalizeStep_length_eq keyOf m data _ ?_, List.length_replicate]
    intro it hit p hl hp0
    obtain ⟨p', hl', h0', hlt'⟩ := hin it hit
    rw [hl] at hl'
    obtain rfl := Option.some_inj.mp hl'.symm
    simpa [List.length_replicate] using hlt'
  have hplace : ∀ it ∈ data, ∀ p : Int, lookupPos m (keyOf it) = some p → 0 ≤ p →
      (handleDragFinalize data keyOf m)[p.toNat]? = some (some it) := by
    intro it hit p hl h0
    obtain ⟨l₁, l₂, hdata⟩ := List.append_of_mem hit
    have hno : ∀ it' ∈ l₂, ∀ p' : Int, lookupPos m (keyOf it') = some p' →
        ¬(0 ≤ p' ∧ p'.toNat = p.toNat) := by
      intro it' hit' p' hl' hcon
      obtain ⟨h0', htn⟩ := hcon
      have hpp : p' = p := by omega
      subst hpp
      have hnd' := hnd
      rw [hdata, List.map_append, List.map_cons] at hnd'
      have hnd₂ := hnd'.of_append_right
      have hnotmem := (List.nodup_cons.mp hnd₂).1
      exact hnotmem (by
        have : lookupPos m (keyOf it') = lookupPos m (keyOf it) := by
          rw [hl, hl']
        exact this ▸ List.mem_map_of_mem (fun x => lookupPos m (keyOf x)) hit')
    conv_lhs => rw [handleDragFinalize, hdata, List.foldl_append]
    exact foldl_finalizeStep_getElem?_hit keyOf m it l₂ _ p hl h0 hno
  refine ⟨hlen, hplace, ?_⟩
  intro hp
  refine List.ext_getElem? fun n => ?_
  by_cases hn : n < data.length
  · have hmem : data.get ⟨n, hn⟩ ∈ data := List.get_mem data n hn
    have hres := hplace (data.get ⟨n, hn⟩) hmem (n : Int) (hp n hn)
      (Int.natCast_nonneg n)
    rw [Int.toNat_ofNat] at hres
    rw [hres, List.getElem?_map, List.getElem?_eq_getElem hn]
    rfl
  · rw [List.getElem?_eq_none (by omega : (handleDragFinalize data keyOf m).length ≤ n),
      List.getElem?_eq_none (by simpa using (by omega : data.length ≤ n))]

/-- Witness for C4: with data `["A", "B"]` and positions `A ↦ 1, B ↦ 0`
(a bijection onto `{0, 1}`), the reported array has `"A"` at index 1. -/
theorem claim4_witness :
    (handleDragFinalize ["A", "B"] (fun s => s) [("A", 1), ("B", 0)])[(1 : Int).toNat]? =
      some (some "A") :=
  (claim4_finalize_slot_order ["A", "B"] (fun s => s) [("A", 1), ("B", 0)]
      (by
        intro it hit
        fin_cases hit
        · exact ⟨1, rfl, by decide, by decide⟩
        · exact ⟨0, rfl, by decide, by decide⟩)
      (by decide)).2.1
    "A" (by decide) 1 rfl (by decide)

/-! ## Counting lemmas for the hole analysis of C10 -/

theorem countP_set_le {α : Type} (l : List (Option α)) (p : Option α → Bool) :
    ∀ (n : Nat) (a : Option α), (l.set n a).countP p ≤ l.countP p + 1 := by
  induction l with
  | nil => intro n a; simp [List.set]
  | cons x xs ih =>
    intro n a
    cases n with
    | zero =>
      simp only [List.set, List.countP_cons]
      by_cases hpa : p a <;> by_cases hpx : p x <;> simp [hpa, hpx] <;> omega
    | succ n =>
      simp only [List.set, List.countP_cons]
      have := ih n a
      by_cases hpx : p x <;> simp [hpx] <;> omega

theorem countP_isSome_jsarraySet_le {α : Type} (arr : List (Option α)) (i : Int)
    (v : α) :
    (jsarraySet arr i v).countP (fun o => o.isSome) ≤
      arr.countP (fun o => o.isSome) + 1 := by
  simp only [jsarraySet]
  split_ifs with h0 hlen
  · exact countP_set_le arr _ _ _
  · simp [List.countP_append, List.countP_replicate, List.countP_cons]
  · exact Nat.le_succ _

theorem countP_isSome_foldl_le {α : Type} (keyOf : α → Key) (m : PosMap)
    (l : List α) : ∀ acc : List (Option α),
    (l.foldl (finalizeStep keyOf m) acc).countP (fun o => o.isSome) ≤
      acc.countP (fun o => o.isSome) +
        l.countP (fun it => (lookupPos m (keyOf it)).isSome) := by
  induction l with
  | nil => intro acc; simp
  | cons it rest ih =>
    intro acc
    rw [List.foldl_cons, List.countP_cons]
    cases hl : lookupPos m (keyOf it) with
    | none =>
      have hstep : finalizeStep keyOf m acc it = acc := by
        simp only [finalizeStep, hl]
      rw [hstep]
      simpa [hl] using ih acc
    | some p =>
      have hstep : finalizeStep keyOf m acc it = jsarraySet acc p it := by
        simp only [finalizeStep, hl]
      rw [hstep]
      have h1 := ih (jsarraySet acc p it)
      have h2 := countP_isSome_jsarraySet_le acc p it
      simp [hl]
      omega

theorem countP_lt_length_of_mem_not {α : Type} (l : List α) (p : α → Bool) (a : α)
    (ha : a ∈ l) (hpa : p a = false) : l.countP p < l.length := by
  obtain ⟨s, t, rfl⟩ := List.append_of_mem ha
  rw [List.countP_append, List.countP_cons, List.length_append, List.length_cons]
  have h1 := List.countP_le_length (p := p) (l := s)
  have h2 := List.countP_le_length (p := p) (l := t)
  simp only [hpa, Bool.false_eq_true, if_false]
  omega

theorem mem_jsarraySet {α : Type} {x : Option α} {arr : List (Option α)} {i : Int}
    {v : α} (h : x ∈ jsarraySet arr i v) : x ∈ arr ∨ x = some v ∨ x = none := by
  simp only [jsarraySet] at h
  split_ifs at h with h0 hlen
  · rcases List.mem_or_eq_of_mem_set h with h' | h'
    · exact Or.inl h'
    · exact Or.inr (Or.inl h')
  · rcases List.mem_append.mp h with h' | h'
    · rcases List.mem_append.mp h' with h'' | h''
      · exact Or.inl h''
      · exact Or.inr (Or.inr (List.eq_of_mem_replicate h''))
    · exact Or.inr (Or.inl (List.mem_singleton.mp h'))
  · exact Or.inl h

theorem mem_foldl_finalizeStep {α : Type} (keyOf : α → Key) (m : PosMap)
    (l : List α) : ∀ (acc : List (Option α)) (x : Option α),
    x ∈ l.foldl (finalizeStep keyOf m) acc →
    x ∈ acc ∨ x = none ∨ ∃ it ∈ l, (lookupPos m (keyOf it)).isSome ∧ x = some it := by
  induction l with
  | nil => intro acc x h; exact Or.inl h
  | cons it rest ih =>
    intro acc x h
    rw [List.foldl_cons] at h
    rcases ih _ x h with h' | h' | ⟨it', hit', hs, hx⟩
    · cases hl : lookupPos m (keyOf it) with
      | none =>
        have hstep : finalizeStep keyOf m acc it = acc := by
          simp only [finalizeStep, hl]
        rw [hstep] at h'
        exact Or.inl h'
      | some p =>
        have hstep : finalizeStep keyOf m acc it = jsarraySet acc p it := by
          simp only [finalizeStep, hl]
        rw [hstep] at h'
        rcases mem_jsarraySet h' with h'' | h'' | h''
        · exact Or.inl h''
        · exact Or.inr (Or.inr ⟨it, List.mem_cons_self _ _, by rw [hl]; rfl, h''⟩)
        · exact Or.inr (Or.inl h'')
    · exact Or.inr (Or.inl h')
    · exact Or.inr (Or.inr ⟨it', List.mem_cons_of_mem _ hit', hs, hx⟩)

/-- Claim C10: if some data key is absent from the positions table when
drag-finalize runs (other keys mapping to distinct in-range slots not
required beyond in-range), the array passed to `onDragEnd` still has
length N, holds an undefined hole at every slot index not hit by any key,
omits the item with the absent key entirely, and is therefore not a
permutation of the data. -/
theorem claim10_absent_key_holes {α : Type} (data : List α) (keyOf : α → Key)
    (m : PosMap) (item₀ : α) (h0 : item₀ ∈ data)
    (habs : lookupPos m (keyOf item₀) = none)
    (hin : ∀ it ∈ data, ∀ p : Int, lookupPos m (keyOf it) = some p → 0 ≤ p →
      p.toNat < data.length)
    (hkeys : (data.map keyOf).Nodup) :
    (handleDragFinalize data keyOf m).length = data.length
    ∧ (∀ j : Nat, j < data.length →
      (∀ it ∈ data, ∀ p : Int, lookupPos m (keyOf it) = some p →
        ¬(0 ≤ p ∧ p.toNat = j)) →
      (handleDragFinalize data keyOf m)[j]? = some none)
    ∧ (∀ x : α, some x ∈ handleDragFinalize data keyOf m → keyOf x ≠ keyOf item₀)
    ∧ ¬(handleDragFinalize data keyOf m).Perm (data.map some) := by
  have hlen : (handleDragFinalize data keyOf m).length = data.length := by
    rw [handleDragFinalize,
      foldl_finalizeStep_length_eq keyOf m data _ ?_, List.length_replicate]
    intro it hit p hl hp0
    simpa [List.length_replicate] using hin it hit p hl hp0
  refine ⟨hlen, ?_, ?_, ?_⟩
  · intro j hj hno
    rw [handleDragFinalize, foldl_finalizeStep_getElem?_frozen keyOf m data _ j
      (by simpa [List.length_replicate] using hj) hno]
    exact List.getElem?_replicate_of_lt hj
  · intro x hx
    rcases mem_foldl_finalizeStep keyOf m data _ _ hx with h' | h' | ⟨it, hit, hs, hsx⟩
    · exact absurd (List.eq_of_mem_replicate h') (by simp)
    · exact absurd h' (by simp)
    · obtain rfl := Option.some_inj.mp hsx
      intro hkk
      have hxi : x = item₀ := List.inj_on_of_nodup_map hkeys hit h0 hkk
      rw [hxi, habs] at hs
      exact absurd hs (by simp)
  · intro hperm
    have hcount : (handleDragFinalize data keyOf m).countP (fun o => o.isSome) ≤
        (List.replicate data.length (none : Option α)).countP (fun o => o.isSome) +
          data.countP (fun it => (lookupPos m (keyOf it)).isSome) :=
      countP_isSome_foldl_le keyOf m data _
    have hinit : (List.replicate data.length (none : Option α)).countP
        (fun o => o.isSome) = 0 := by
      simp [List.countP_replicate]
    have hdata : data.countP (fun it => (lookupPos m (keyOf it)).isSome) <
        data.length :=
      countP_lt_length_of_mem_not data _ item₀ h0 (by simp [habs])
    have hne : ∃ x ∈ handleDragFinalize data keyOf m, ¬((fun o => o.isSome) x) := by
      by_contra hall
      push_neg at hall
      have heq : (handleDragFinalize data keyOf m).countP (fun o => o.isSome) =
          (handleDragFinalize data keyOf m).length :=
        List.countP_eq_length.mpr (fun a hx => hall a hx)
      omega
    obtain ⟨x, hx, hxs⟩ := hne
    have hxnone : x = none := by
      cases x with
      | none => rfl
      | some a =>
        exfalso
        exact hxs (by simp)
    rw [hxnone] at hx
    have := hperm.mem_iff.mp hx
    obtain ⟨a, -, ha⟩ := List.mem_map.mp this
    exact Option.noConfusion ha

/-- Witness for C10: data `["A", "B", "C"]` with `B` absent from the
table (`A ↦ 0, C ↦ 2`): slot index 1 of the reported array holds a
hole. -/
theorem claim10_witness :
    (handleDragFinalize ["A", "B", "C"] (fun s => s) exPositionsAbsent)[1]? =
      some none :=
  (claim10_absent_key_holes ["A", "B", "C"] (fun s => s) exPositionsAbsent "B"
      (by decide) rfl
      (by
        intro it hit p hl hp0
        fin_cases hit
        · rw [show lookupPos exPositionsAbsent "A" = some (0 : Int) from rfl] at hl
          obtain rfl := Option.some_inj.mp hl
          decide
        · exact absurd hl (by
            rw [show lookupPos exPositionsAbsent "B" = (none : Option Int) from rfl]
            simp)
        · rw [show lookupPos exPositionsAbsent "C" = some (2 : Int) from rfl] at hl
          obtain rfl := Option.some_inj.mp hl
          decide)
      (by decide)).2.1
    1 (by decide)
    (by
      intro it hit p hl hcon
      obtain ⟨hp0, htn⟩ := hcon
      fin_cases hit
      · rw [show lookupPos exPositionsAbsent "A" = some (0 : Int) from rfl] at hl
        obtain rfl := Option.some_inj.mp hl
        exact absurd htn (by decide)
      · exact absurd hl (by
          rw [show lookupPos exPositionsAbsent "B" = (none : Option Int) from rfl]
          simp)
      · rw [show lookupPos exPositionsAbsent "C" = some (2 : Int) from rfl] at hl
        obtain rfl := Option.some_inj.mp hl
        exact absurd htn (by decide))

end DragList
